import Mathlib

/-!
Verification of the algorithms module of ProjectBike (`src/algorithms.py`):
hand-written merge sort, insertion sort, binary search, linear search, and
the two timing benchmark harnesses.

The Python functions are shallowly embedded as Lean functions over `List α`
with a caller-supplied key function `key : α → K` into a linear order `K`
(the spec's "orderable key"). Python's `None` result of the searches becomes
`Option.none`; Python `int` loop indices of `binary_search` become `Int`
(the initial `high = len - 1` may be `-1`); Python's floor division `//` on
the nonnegative indices involved agrees with Lean's `Int` division by `2`.
The wall-clock readings of `timeit.timeit` in the benchmark harnesses are
non-deterministic, so they enter the embedding as explicit oracle arguments
(one rational number of elapsed seconds per timed callable).
-/

namespace ProjectBike

variable {α : Type} {K : Type} [LinearOrder K]

/-- Embedding of `_merge(left, right, key)` (src/algorithms.py lines 45-65):
merges two lists, taking from the left on ties (`key(left[i]) <= key(right[j])`). -/
def _merge (key : α → K) : List α → List α → List α
  | [], right => right
  | left, [] => left
  | a :: left, b :: right =>
    if key a ≤ key b then a :: _merge key left (b :: right)
    else b :: _merge key (a :: left) right

/-- Embedding of `merge_sort(data, key)` (src/algorithms.py lines 20-42):
length ≤ 1 returns a copy (value-equal list), otherwise split at
`len(data) // 2`, recurse, and merge. -/
def merge_sort (data : List α) (key : α → K) : List α :=
  if data.length ≤ 1 then data
  else
    let mid := data.length / 2
    _merge key (merge_sort (data.take mid) key) (merge_sort (data.drop mid) key)
termination_by data.length
decreasing_by
  · simp; omega
  · simp; omega

/-- Embedding of the inner `while` loop of `insertion_sort`
(src/algorithms.py lines 90-94). The `Nat` argument is `j + 1` where `j` is
the Python loop variable (so `0` encodes the exit case `j = -1`); the loop
shifts `arr[j]` to `arr[j+1]` while `j >= 0 and key(arr[j]) > current_key`,
then writes `current` at `arr[j+1]`. -/
def insertLoop (key : α → K) (current : α) (current_key : K) : List α → Nat → List α
  | arr, 0 => arr.set 0 current
  | arr, j + 1 =>
    if h : j < arr.length then
      if current_key < key (arr.get ⟨j, h⟩) then
        insertLoop key current current_key (arr.set (j + 1) (arr.get ⟨j, h⟩)) j
      else arr.set (j + 1) current
    else arr.set (j + 1) current

theorem insertLoop_length (key : α → K) (c : α) (ck : K) :
    ∀ (j : Nat) (arr : List α), (insertLoop key c ck arr j).length = arr.length := by
  intro j
  induction j with
  | zero => intro arr; simp [insertLoop]
  | succ j ih =>
    intro arr
    rw [insertLoop]
    by_cases h : j < arr.length
    · rw [dif_pos h]
      by_cases h2 : ck < key (arr.get ⟨j, h⟩)
      · rw [if_pos h2, ih]
        simp
      · rw [if_neg h2]
        simp
    · rw [dif_neg h]
      simp

/-- Embedding of the outer `for i in range(1, len(arr))` loop of
`insertion_sort` (src/algorithms.py lines 84-94), processing index `i`
upwards. -/
def insertFrom (key : α → K) (arr : List α) (i : Nat) : List α :=
  if h : i < arr.length then
    insertFrom key (insertLoop key (arr.get ⟨i, h⟩) (key (arr.get ⟨i, h⟩)) arr i) (i + 1)
  else arr
termination_by arr.length - i
decreasing_by simp [insertLoop_length]; omega

/-- Embedding of `insertion_sort(data, key)` (src/algorithms.py lines 72-96):
copies the input (`arr = list(data)`) and runs the insertion loops on the
copy, starting at index 1. -/
def insertion_sort (data : List α) (key : α → K) : List α :=
  insertFrom key data 1

/-- Sortedness of a list under a key function, ascending: the formalisation
of the spec's "sorted ascending by `key`" / "non-descending under K". -/
def sortedByKey (key : α → K) (l : List α) : Prop :=
  List.Pairwise (fun a b => key a ≤ key b) l

instance (key : α → K) (l : List α) : Decidable (sortedByKey key l) :=
  List.instDecidablePairwise l

/-- All elements of `l` whose key is `k`, in list order: the stability of a
sort is expressed as preservation of `keyFilter` for every `k`. -/
def keyFilter (key : α → K) (k : K) (l : List α) : List α :=
  l.filter (fun x => decide (key x = k))

theorem keyFilter_append (key : α → K) (k : K) (l1 l2 : List α) :
    keyFilter key k (l1 ++ l2) = keyFilter key k l1 ++ keyFilter key k l2 := by
  simp [keyFilter]

theorem keyFilter_cons (key : α → K) (k : K) (a : α) (l : List α) :
    keyFilter key k (a :: l) =
      if key a = k then a :: keyFilter key k l else keyFilter key k l := by
  by_cases h : key a = k <;> simp [keyFilter, h]

-- ---------------------------------------------------------------------------
-- Merge lemmas
-- ---------------------------------------------------------------------------

theorem merge_perm (key : α → K) :
    ∀ (left right : List α), (_merge key left right).Perm (left ++ right) := by
  intro left
  induction left with
  | nil => intro right; simp [_merge]
  | cons a l ihl =>
    intro right
    induction right with
    | nil => simp [_merge]
    | cons b r ihr =>
      by_cases h : key a ≤ key b
      · simpa [_merge, h] using (ihl (b :: r)).cons a
      · rw [_merge, if_neg h]
        exact (ihr.cons b).trans List.perm_middle.symm

theorem mem_merge (key : α → K) {left right : List α} {x : α}
    (hx : x ∈ _merge key left right) : x ∈ left ++ right :=
  (merge_perm key left right).mem_iff.mp hx

theorem merge_sorted (key : α → K) :
    ∀ (left right : List α), sortedByKey key left → sortedByKey key right →
      sortedByKey key (_merge key left right) := by
  intro left
  induction left with
  | nil => intro right _ hr; simpa [_merge] using hr
  | cons a l ihl =>
    intro right hl hr
    induction right with
    | nil => simpa [_merge] using hl
    | cons b r ihr =>
      rw [sortedByKey, List.pairwise_cons] at hl hr
      by_cases h : key a ≤ key b
      · rw [_merge, if_pos h]
        rw [sortedByKey, List.pairwise_cons]
        constructor
        · intro x hx
          rcases List.mem_append.mp (mem_merge key hx) with hx | hx
          · exact hl.1 x hx
          · rcases List.mem_cons.mp hx with rfl | hx
            · exact h
            · exact h.trans (hr.1 x hx)
        · exact ihl (b :: r) hl.2 (List.pairwise_cons.mpr hr)
      · rw [_merge, if_neg h]
        have hba : key b ≤ key a := le_of_lt (lt_of_not_le h)
        rw [sortedByKey, List.pairwise_cons]
        constructor
        · intro x hx
          rcases List.mem_append.mp (mem_merge key hx) with hx | hx
          · rcases List.mem_cons.mp hx with rfl | hx
            · exact hba
            · exact hba.trans (hl.1 x hx)
          · exact hr.1 x hx
        · exact ihr hr.2

theorem merge_filter (key : α → K) (k : K) :
    ∀ (left right : List α), sortedByKey key left →
      keyFilter key k (_merge key left right) =
        keyFilter key k left ++ keyFilter key k right := by
  intro left
  induction left with
  | nil => intro right _; simp [_merge, keyFilter]
  | cons a l ihl =>
    intro right hl
    induction right with
    | nil => simp [_merge, keyFilter]
    | cons b r ihr =>
      rw [sortedByKey, List.pairwise_cons] at hl
      by_cases h : key a ≤ key b
      · rw [_merge, if_pos h, keyFilter_cons, keyFilter_cons,
          ihl (b :: r) hl.2]
        by_cases hk : key a = k <;> simp [hk]
      · have hba : key b < key a := lt_of_not_le h
        rw [_merge, if_neg h, keyFilter_cons, ihr]
        rw [keyFilter_cons key k b r]
        by_cases hk : key b = k
        · have hnil : keyFilter key k (a :: l) = [] := by
            rw [keyFilter, List.filter_eq_nil_iff]
            intro x hx
            rcases List.mem_cons.mp hx with rfl | hx
            · simp only [decide_eq_true_eq]
              intro hc
              exact absurd (hc ▸ hba) (by simp [hk])
            · simp only [decide_eq_true_eq]
              intro hc
              have h2 : key a ≤ key b := by
                rw [hk, ← hc]; exact hl.1 x hx
              exact absurd (lt_of_lt_of_le hba h2) (lt_irrefl _)
          simp [hk, hnil]
        · simp [hk]

-- ---------------------------------------------------------------------------
-- merge_sort lemmas
-- ---------------------------------------------------------------------------

theorem merge_sort_base (data : List α) (key : α → K) (h : data.length ≤ 1) :
    merge_sort data key = data := by
  rw [merge_sort, if_pos h]

theorem merge_sort_step (data : List α) (key : α → K) (h : ¬ data.length ≤ 1) :
    merge_sort data key =
      _merge key (merge_sort (data.take (data.length / 2)) key)
        (merge_sort (data.drop (data.length / 2)) key) := by
  rw [merge_sort]
  simp [h]

theorem merge_sort_perm (data : List α) (key : α → K) :
    (merge_sort data key).Perm data := by
  suffices hall : ∀ (n : Nat) (l : List α), l.length ≤ n → (merge_sort l key).Perm l by
    exact hall data.length data le_rfl
  intro n
  induction n with
  | zero =>
    intro l hl
    have : l = [] := List.length_eq_zero.mp (Nat.le_zero.mp hl)
    subst this
    simp [merge_sort_base]
  | succ n ih =>
    intro l hl
    by_cases h1 : l.length ≤ 1
    · rw [merge_sort_base l key h1]
    · rw [merge_sort_step l key h1]
      have hmid1 : 1 ≤ l.length / 2 := by omega
      have hmid2 : l.length / 2 < l.length := by omega
      have htake : (l.take (l.length / 2)).length ≤ n := by
        simp only [List.length_take]
        omega
      have hdrop : (l.drop (l.length / 2)).length ≤ n := by
        simp only [List.length_drop]
        omega
      have hperm : (l.take (l.length / 2) ++ l.drop (l.length / 2)).Perm l := by
        rw [List.take_append_drop]
      exact (merge_perm key _ _).trans
        (((ih _ htake).append (ih _ hdrop)).trans hperm)

theorem merge_sort_length (data : List α) (key : α → K) :
    (merge_sort data key).length = data.length :=
  (merge_sort_perm data key).length_eq

theorem merge_sort_sorted (data : List α) (key : α → K) :
    sortedByKey key (merge_sort data key) := by
  suffices hall : ∀ (n : Nat) (l : List α), l.length ≤ n → sortedByKey key (merge_sort l key) by
    exact hall data.length data le_rfl
  intro n
  induction n with
  | zero =>
    intro l hl
    have : l = [] := List.length_eq_zero.mp (Nat.le_zero.mp hl)
    subst this
    simp [merge_sort_base, sortedByKey]
  | succ n ih =>
    intro l hl
    by_cases h1 : l.length ≤ 1
    · rw [merge_sort_base l key h1]
      match l, h1 with
      | [], _ => simp [sortedByKey]
      | [a], _ => simp [sortedByKey]
    · rw [merge_sort_step l key h1]
      have htake : (l.take (l.length / 2)).length ≤ n := by
        simp only [List.length_take]; omega
      have hdrop : (l.drop (l.length / 2)).length ≤ n := by
        simp only [List.length_drop]; omega
      exact merge_sorted key _ _ (ih _ htake) (ih _ hdrop)

theorem merge_sort_filter (data : List α) (key : α → K) (k : K) :
    keyFilter key k (merge_sort data key) = keyFilter key k data := by
  suffices hall : ∀ (n : Nat) (l : List α), l.length ≤ n →
      keyFilter key k (merge_sort l key) = keyFilter key k l by
    exact hall data.length data le_rfl
  intro n
  induction n with
  | zero =>
    intro l hl
    have : l = [] := List.length_eq_zero.mp (Nat.le_zero.mp hl)
    subst this
    simp [merge_sort_base]
  | succ n ih =>
    intro l hl
    by_cases h1 : l.length ≤ 1
    · rw [merge_sort_base l key h1]
    · rw [merge_sort_step l key h1]
      have htake : (l.take (l.length / 2)).length ≤ n := by
        simp only [List.length_take]; omega
      have hdrop : (l.drop (l.length / 2)).length ≤ n := by
        simp only [List.length_drop]; omega
      rw [merge_filter key k _ _ (merge_sort_sorted _ key),
        ih _ htake, ih _ hdrop, ← keyFilter_append,
        List.take_append_drop]

-- ---------------------------------------------------------------------------
-- Characterisation of the insertion_sort inner loop: on a list `pre ++ c0 :: suf`
-- with loop counter `pre.length` (i.e. `j = pre.length - 1`), the loop replaces
-- the slice `pre ++ [c0]` by `current` inserted from the right into `pre`.
-- ---------------------------------------------------------------------------

/-- Helper for reasoning about `insertLoop`: insert `c` into the reversed
prefix, walking past elements whose key is strictly greater than `ck`. -/
def rInsAux (key : α → K) (c : α) (ck : K) : List α → List α
  | [] => [c]
  | x :: xs => if ck < key x then x :: rInsAux key c ck xs else c :: x :: xs

/-- Insert `c` into `l` from the right (after every element whose key is
`≤ key c`, before the trailing block of strictly greater keys): this is the
net effect of `insertion_sort`'s shifting loop on the prefix `l`. -/
def rIns (key : α → K) (c : α) (l : List α) : List α :=
  (rInsAux key c (key c) l.reverse).reverse

theorem rIns_nil (key : α → K) (c : α) : rIns key c [] = [c] := by
  simp [rIns, rInsAux]

theorem rIns_snoc_gt (key : α → K) (c p : α) (ps : List α) (h : key c < key p) :
    rIns key c (ps ++ [p]) = rIns key c ps ++ [p] := by
  simp [rIns, rInsAux, h]

theorem rIns_snoc_le (key : α → K) (c p : α) (ps : List α) (h : ¬ key c < key p) :
    rIns key c (ps ++ [p]) = ps ++ [p, c] := by
  simp [rIns, rInsAux, h]

theorem rInsAux_length (key : α → K) (c : α) (ck : K) :
    ∀ xs : List α, (rInsAux key c ck xs).length = xs.length + 1 := by
  intro xs
  induction xs with
  | nil => simp [rInsAux]
  | cons x xs ih => by_cases h : ck < key x <;> simp [rInsAux, h, ih]

theorem rIns_length (key : α → K) (c : α) (l : List α) :
    (rIns key c l).length = l.length + 1 := by
  simp [rIns, rInsAux_length]

theorem rInsAux_decomp (key : α → K) (c : α) (ck : K) :
    ∀ xs : List α, ∃ u v, xs = u ++ v ∧ rInsAux key c ck xs = u ++ c :: v ∧
      (∀ x ∈ u, ck < key x) ∧ (v = [] ∨ ∃ y w, v = y :: w ∧ ¬ ck < key y) := by
  intro xs
  induction xs with
  | nil => exact ⟨[], [], rfl, by simp [rInsAux], by simp, Or.inl rfl⟩
  | cons x xs ih =>
    by_cases h : ck < key x
    · obtain ⟨u, v, hxs, hr, hu, hv⟩ := ih
      refine ⟨x :: u, v, by rw [List.cons_append, ← hxs], ?_, ?_, hv⟩
      · rw [rInsAux, if_pos h, hr, List.cons_append]
      · intro y hy
        rcases List.mem_cons.mp hy with rfl | hy
        · exact h
        · exact hu y hy
    · exact ⟨[], x :: xs, rfl, by rw [rInsAux, if_neg h]; rfl, by simp,
        Or.inr ⟨x, xs, rfl, h⟩⟩

theorem rIns_decomp (key : α → K) (c : α) (l : List α) :
    ∃ l1 l2, l = l1 ++ l2 ∧ rIns key c l = l1 ++ c :: l2 ∧
      (∀ x ∈ l2, key c < key x) ∧
      (l1 = [] ∨ ∃ l1p y, l1 = l1p ++ [y] ∧ ¬ key c < key y) := by
  obtain ⟨u, v, hrev, hr, hu, hv⟩ := rInsAux_decomp key c (key c) l.reverse
  refine ⟨v.reverse, u.reverse, ?_, ?_, ?_, ?_⟩
  · have h := congrArg List.reverse hrev
    simpa [List.reverse_append] using h
  · rw [rIns, hr]
    simp [List.reverse_append]
  · intro x hx
    exact hu x (List.mem_reverse.mp hx)
  · rcases hv with rfl | ⟨y, w, hyw, hy⟩
    · exact Or.inl (by simp)
    · subst hyw
      exact Or.inr ⟨w.reverse, y, by simp, hy⟩

theorem rIns_perm (key : α → K) (c : α) (l : List α) :
    (rIns key c l).Perm (c :: l) := by
  obtain ⟨l1, l2, hdecomp, hrins, -, -⟩ := rIns_decomp key c l
  rw [hrins, hdecomp]
  exact List.perm_middle

theorem rIns_filter (key : α → K) (c : α) (l : List α) (k : K) :
    keyFilter key k (rIns key c l) = keyFilter key k (l ++ [c]) := by
  obtain ⟨l1, l2, hdecomp, hrins, hgt, -⟩ := rIns_decomp key c l
  rw [hrins]
  conv_rhs => rw [hdecomp]
  rw [keyFilter_append, keyFilter_cons, List.append_assoc, keyFilter_append,
    keyFilter_append]
  by_cases hck : key c = k
  · have hnil : List.filter (fun x => decide (key x = k)) l2 = [] := by
      rw [List.filter_eq_nil_iff]
      intro x hx
      simp only [decide_eq_true_eq]
      intro hc
      have hlt := hgt x hx
      rw [hck, hc] at hlt
      exact lt_irrefl _ hlt
    simp [hck, keyFilter, hnil]
  · simp [hck, keyFilter]

theorem rIns_sorted (key : α → K) (c : α) (l : List α) (hl : sortedByKey key l) :
    sortedByKey key (rIns key c l) := by
  obtain ⟨l1, l2, hdecomp, hrins, hgt, hlast⟩ := rIns_decomp key c l
  rw [hrins]
  rw [hdecomp] at hl
  rw [sortedByKey, List.pairwise_append] at hl ⊢
  obtain ⟨h1, h2, h12⟩ := hl
  refine ⟨h1, ?_, ?_⟩
  · rw [List.pairwise_cons]
    exact ⟨fun y hy => le_of_lt (hgt y hy), h2⟩
  · intro x hx y hy
    rcases List.mem_cons.mp hy with rfl | hy
    · rcases hlast with rfl | ⟨l1p, z, rfl, hz⟩
      · exact absurd hx (List.not_mem_nil x)
      · have hzc : key z ≤ key y := le_of_not_lt hz
        rcases List.mem_append.mp hx with hx | hx
        · rw [List.pairwise_append] at h1
          exact (h1.2.2 x hx z (by simp)).trans hzc
        · rw [List.mem_singleton] at hx
          subst hx
          exact hzc
    · exact h12 x hx y hy

theorem insertLoop_eq_rIns (key : α → K) (c : α) :
    ∀ (pre : List α) (c0 : α) (suf : List α),
      insertLoop key c (key c) (pre ++ c0 :: suf) pre.length =
        rIns key c pre ++ suf := by
  intro pre
  induction pre using List.reverseRecOn with
  | nil =>
    intro c0 suf
    simp [insertLoop, rIns_nil]
  | append_singleton ps p ih =>
    intro c0 suf
    have hlen : (ps ++ [p]).length = ps.length + 1 := by simp
    have hassoc : (ps ++ [p]) ++ c0 :: suf = ps ++ p :: c0 :: suf := by simp
    rw [hlen, hassoc, insertLoop]
    have hget : (ps ++ p :: c0 :: suf)[ps.length]? = some p := by
      rw [List.getElem?_append_right le_rfl]
      simp
    have hj : ps.length < (ps ++ p :: c0 :: suf).length := by simp
    rw [dif_pos hj]
    have hgetv : (ps ++ p :: c0 :: suf).get ⟨ps.length, hj⟩ = p := by
      have h1 : (ps ++ p :: c0 :: suf)[ps.length]? =
          some ((ps ++ p :: c0 :: suf).get ⟨ps.length, hj⟩) := by
        simp [List.getElem?_eq_getElem hj]
      rw [hget] at h1
      exact (Option.some_inj.mp h1).symm
    rw [hgetv]
    by_cases hcp : key c < key p
    · rw [if_pos hcp]
      have hset : (ps ++ p :: c0 :: suf).set (ps.length + 1) p =
          ps ++ p :: p :: suf := by
        rw [List.set_append_right _ _ (by omega)]
        congr 1
        have : ps.length + 1 - ps.length = 1 := by omega
        rw [this]
        rfl
      rw [hset, ih p (p :: suf), rIns_snoc_gt key c p ps hcp]
      simp
    · rw [if_neg hcp]
      have hset : (ps ++ p :: c0 :: suf).set (ps.length + 1) c =
          ps ++ p :: c :: suf := by
        rw [List.set_append_right _ _ (by omega)]
        congr 1
        have : ps.length + 1 - ps.length = 1 := by omega
        rw [this]
        rfl
      rw [hset, rIns_snoc_le key c p ps hcp]
      simp

theorem insertFrom_props (key : α → K) :
    ∀ (n : Nat) (arr : List α) (i : Nat), arr.length - i ≤ n →
      sortedByKey key (arr.take i) →
      (insertFrom key arr i).Perm arr ∧ sortedByKey key (insertFrom key arr i) ∧
        ∀ k, keyFilter key k (insertFrom key arr i) = keyFilter key k arr := by
  intro n
  induction n with
  | zero =>
    intro arr i hn hsort
    have hge : ¬ i < arr.length := by omega
    rw [insertFrom, dif_neg hge]
    refine ⟨List.Perm.refl arr, ?_, fun k => rfl⟩
    rwa [List.take_of_length_le (by omega)] at hsort
  | succ n ih =>
    intro arr i hn hsort
    by_cases hlt : i < arr.length
    · rw [insertFrom, dif_pos hlt]
      have hdec : arr.take i ++ arr.get ⟨i, hlt⟩ :: arr.drop (i + 1) = arr := by
        conv_rhs => rw [← List.take_append_drop i arr]
        congr 1
        exact List.getElem_cons_drop arr i hlt
      have hpre : (arr.take i).length = i := by
        simp only [List.length_take]
        omega
      have hloop := insertLoop_eq_rIns key (arr.get ⟨i, hlt⟩) (arr.take i)
        (arr.get ⟨i, hlt⟩) (arr.drop (i + 1))
      rw [hpre, hdec] at hloop
      rw [hloop]
      have hlen2 : (rIns key (arr.get ⟨i, hlt⟩) (arr.take i) ++
          arr.drop (i + 1)).length = arr.length := by
        simp only [List.length_append, rIns_length, hpre, List.length_drop]
        omega
      have htake2 : (rIns key (arr.get ⟨i, hlt⟩) (arr.take i) ++
          arr.drop (i + 1)).take (i + 1) = rIns key (arr.get ⟨i, hlt⟩) (arr.take i) :=
        List.take_left' (by rw [rIns_length, hpre])
      have hsort2 : sortedByKey key ((rIns key (arr.get ⟨i, hlt⟩) (arr.take i) ++
          arr.drop (i + 1)).take (i + 1)) := by
        rw [htake2]
        exact rIns_sorted key _ _ hsort
      obtain ⟨p1, p2, p3⟩ := ih (rIns key (arr.get ⟨i, hlt⟩) (arr.take i) ++
        arr.drop (i + 1)) (i + 1) (by omega) hsort2
      have hperm2 : (rIns key (arr.get ⟨i, hlt⟩) (arr.take i) ++
          arr.drop (i + 1)).Perm arr := by
        have h1 := (rIns_perm key (arr.get ⟨i, hlt⟩) (arr.take i)).append_right
          (arr.drop (i + 1))
        have h2 : ((arr.get ⟨i, hlt⟩ :: arr.take i) ++ arr.drop (i + 1)).Perm arr := by
          rw [List.cons_append]
          conv_rhs => rw [← hdec]
          exact List.perm_middle.symm
        exact h1.trans h2
      have hfilt2 : ∀ k, keyFilter key k (rIns key (arr.get ⟨i, hlt⟩) (arr.take i) ++
          arr.drop (i + 1)) = keyFilter key k arr := by
        intro k
        conv_rhs => rw [← hdec]
        rw [keyFilter_append, rIns_filter, keyFilter_append,
          keyFilter_append, keyFilter_cons, keyFilter_cons]
        split <;> simp [keyFilter]
      exact ⟨p1.trans hperm2, p2, fun k => (p3 k).trans (hfilt2 k)⟩
    · rw [insertFrom, dif_neg hlt]
      refine ⟨List.Perm.refl arr, ?_, fun k => rfl⟩
      rwa [List.take_of_length_le (by omega)] at hsort

theorem sortedByKey_short (key : α → K) (l : List α) (h : l.length ≤ 1) :
    sortedByKey key l := by
  match l, h with
  | [], _ => simp [sortedByKey]
  | [a], _ => simp [sortedByKey]

theorem insertion_sort_perm (data : List α) (key : α → K) :
    (insertion_sort data key).Perm data :=
  (insertFrom_props key data.length data 1 (by omega)
    (sortedByKey_short key _ (by simp [List.length_take]))).1

theorem insertion_sort_sorted (data : List α) (key : α → K) :
    sortedByKey key (insertion_sort data key) :=
  (insertFrom_props key data.length data 1 (by omega)
    (sortedByKey_short key _ (by simp [List.length_take]))).2.1

theorem insertion_sort_filter (data : List α) (key : α → K) (k : K) :
    keyFilter key k (insertion_sort data key) = keyFilter key k data :=
  (insertFrom_props key data.length data 1 (by omega)
    (sortedByKey_short key _ (by simp [List.length_take]))).2.2 k

theorem insertion_sort_length (data : List α) (key : α → K) :
    (insertion_sort data key).length = data.length :=
  (insertion_sort_perm data key).length_eq

-- ---------------------------------------------------------------------------
-- A sorted list is uniquely determined by its per-key filters: the common
-- characterisation of a stable sort's output.
-- ---------------------------------------------------------------------------

theorem sorted_filter_unique (key : α → K) :
    ∀ (l1 l2 : List α), sortedByKey key l1 → sortedByKey key l2 →
      (∀ k, keyFilter key k l1 = keyFilter key k l2) → l1 = l2 := by
  intro l1
  induction l1 with
  | nil =>
    intro l2 _ _ hf
    cases l2 with
    | nil => rfl
    | cons y t2 =>
      have h := hf (key y)
      simp [keyFilter] at h
  | cons x t1 ih =>
    intro l2 hs1 hs2 hf
    cases l2 with
    | nil =>
      have h := hf (key x)
      simp [keyFilter] at h
    | cons y t2 =>
      rw [sortedByKey, List.pairwise_cons] at hs1 hs2
      have hyx : key y ≤ key x := by
        have h1 := hf (key x)
        rw [keyFilter_cons, if_pos rfl] at h1
        have hx2 : x ∈ keyFilter key (key x) (y :: t2) := by
          rw [← h1]
          exact List.mem_cons_self x _
        have hx2' : x ∈ y :: t2 := List.mem_of_mem_filter hx2
        rcases List.mem_cons.mp hx2' with rfl | hx2''
        · exact le_rfl
        · exact hs2.1 x hx2''
      have hxy : key x ≤ key y := by
        have h1 := hf (key y)
        rw [keyFilter_cons key (key y) y t2, if_pos rfl] at h1
        have hy1 : y ∈ keyFilter key (key y) (x :: t1) := by
          rw [h1]
          exact List.mem_cons_self y _
        have hy1' : y ∈ x :: t1 := List.mem_of_mem_filter hy1
        rcases List.mem_cons.mp hy1' with rfl | hy1''
        · exact le_rfl
        · exact hs1.1 y hy1''
      have hkeq : key x = key y := le_antisymm hxy hyx
      have h1 := hf (key x)
      rw [keyFilter_cons, keyFilter_cons, if_pos rfl, if_pos hkeq.symm] at h1
      injection h1 with hheads htails
      have hall : ∀ k, keyFilter key k t1 = keyFilter key k t2 := by
        intro k
        by_cases hk : key x = k
        · subst hk
          exact htails
        · have h2 := hf k
          rw [keyFilter_cons, keyFilter_cons, if_neg hk,
            if_neg (by rw [← hkeq]; exact hk)] at h2
          exact h2
      have ht12 : t1 = t2 := ih t2 hs1.2 hs2.2 hall
      rw [hheads, ht12]

-- ---------------------------------------------------------------------------
-- Binary search
-- ---------------------------------------------------------------------------

theorem sortedByKey_get_mono (key : α → K) {l : List α} (hs : sortedByKey key l)
    {i j : Nat} (hij : i ≤ j) (hj : j < l.length) :
    key (l.get ⟨i, lt_of_le_of_lt hij hj⟩) ≤ key (l.get ⟨j, hj⟩) := by
  rcases Nat.eq_or_lt_of_le hij with rfl | hlt
  · exact le_rfl
  · exact List.pairwise_iff_get.mp hs ⟨i, lt_of_le_of_lt hij hj⟩ ⟨j, hj⟩ hlt

section Search

variable [Inhabited α]

/-- Embedding of the `while low <= high` loop of `binary_search`
(src/algorithms.py lines 122-133). Indices are Python ints, so `Int` here;
Python's floor division `(low + high) // 2` agrees with Lean's `Int`
division for the nonnegative values that can occur. `getD ... default`
models `sorted_data[mid]`, which Python evaluates only at in-range indices
(`0 ≤ low ≤ mid ≤ high < len`) in every reachable state. -/
def bsLoop (sorted_data : List α) (target : K) (key : α → K) (low high : Int) : Option Int :=
  if low ≤ high then
    let mid := (low + high) / 2
    let mid_val := key (sorted_data.getD mid.toNat default)
    if mid_val = target then some mid
    else if mid_val < target then bsLoop sorted_data target key (mid + 1) high
    else bsLoop sorted_data target key low (mid - 1)
  else none
termination_by (high + 1 - low).toNat
decreasing_by
  · omega
  · omega

/-- Embedding of `binary_search(sorted_data, target, key)`
(src/algorithms.py lines 103-133): starts with the closed interval
`[0, len - 1]`; returns `none` for Python's `None`. -/
def binary_search (sorted_data : List α) (target : K) (key : α → K) : Option Int :=
  bsLoop sorted_data target key 0 ((sorted_data.length : Int) - 1)

theorem bsLoop_exit (data : List α) (t : K) (key : α → K) (low high : Int)
    (h : ¬ low ≤ high) : bsLoop data t key low high = none := by
  rw [bsLoop, if_neg h]

theorem bsLoop_step (data : List α) (t : K) (key : α → K) (low high : Int)
    (h : low ≤ high) :
    bsLoop data t key low high =
      (if key (data.getD ((low + high) / 2).toNat default) = t
        then some ((low + high) / 2)
        else if key (data.getD ((low + high) / 2).toNat default) < t
          then bsLoop data t key ((low + high) / 2 + 1) high
          else bsLoop data t key low ((low + high) / 2 - 1)) := by
  rw [bsLoop]
  simp [h]

theorem bsLoop_sound (data : List α) (t : K) (key : α → K) :
    ∀ (n : Nat) (low high : Int), (high + 1 - low).toNat ≤ n →
      0 ≤ low → high < (data.length : Int) →
      ∀ i, bsLoop data t key low high = some i →
        ∃ (j : Nat) (hj : j < data.length), i = (j : Int) ∧
          key (data.get ⟨j, hj⟩) = t := by
  intro n
  induction n with
  | zero =>
    intro low high hn h0 hhigh i hsome
    rw [bsLoop_exit data t key low high (by omega)] at hsome
    exact absurd hsome (by simp)
  | succ n ih =>
    intro low high hn h0 hhigh i hsome
    by_cases h : low ≤ high
    · rw [bsLoop_step data t key low high h] at hsome
      have hmid0 : 0 ≤ (low + high) / 2 := by omega
      have hmidlen : ((low + high) / 2).toNat < data.length := by omega
      by_cases heq : key (data.getD ((low + high) / 2).toNat default) = t
      · rw [if_pos heq] at hsome
        refine ⟨((low + high) / 2).toNat, hmidlen, ?_, ?_⟩
        · have := Option.some_inj.mp hsome
          omega
        · have hdg : data.getD ((low + high) / 2).toNat default =
              data.get ⟨((low + high) / 2).toNat, hmidlen⟩ :=
            List.getD_eq_getElem data default hmidlen
          rw [← hdg]
          exact heq
      · rw [if_neg heq] at hsome
        by_cases hlt : key (data.getD ((low + high) / 2).toNat default) < t
        · rw [if_pos hlt] at hsome
          exact ih ((low + high) / 2 + 1) high (by omega) (by omega) hhigh i hsome
        · rw [if_neg hlt] at hsome
          exact ih low ((low + high) / 2 - 1) (by omega) h0 (by omega) i hsome
    · rw [bsLoop_exit data t key low high h] at hsome
      exact absurd hsome (by simp)

theorem bsLoop_complete (data : List α) (t : K) (key : α → K)
    (hsort : sortedByKey key data) :
    ∀ (n : Nat) (low high : Int), (high + 1 - low).toNat ≤ n →
      0 ≤ low → high < (data.length : Int) →
      (∃ (j : Nat) (hj : j < data.length), low ≤ (j : Int) ∧ (j : Int) ≤ high ∧
        key (data.get ⟨j, hj⟩) = t) →
      ∃ i, bsLoop data t key low high = some i := by
  intro n
  induction n with
  | zero =>
    intro low high hn h0 hhigh hex
    obtain ⟨j, hj, hlow, hhi, -⟩ := hex
    omega
  | succ n ih =>
    intro low high hn h0 hhigh hex
    obtain ⟨j, hj, hlow, hhi, hkey⟩ := hex
    have h : low ≤ high := by omega
    rw [bsLoop_step data t key low high h]
    have hmid0 : 0 ≤ (low + high) / 2 := by omega
    have hmidhi : (low + high) / 2 ≤ high := by omega
    have hmidlen : ((low + high) / 2).toNat < data.length := by omega
    by_cases heq : key (data.getD ((low + high) / 2).toNat default) = t
    · rw [if_pos heq]
      exact ⟨(low + high) / 2, rfl⟩
    · rw [if_neg heq]
      have hmidval : data.getD ((low + high) / 2).toNat default =
          data.get ⟨((low + high) / 2).toNat, hmidlen⟩ :=
        List.getD_eq_getElem data default hmidlen
      by_cases hlt : key (data.getD ((low + high) / 2).toNat default) < t
      · rw [if_pos hlt]
        have hjgt : (low + high) / 2 < (j : Int) := by
          by_contra hcon
          have hjle : j ≤ ((low + high) / 2).toNat := by omega
          have hmono := sortedByKey_get_mono key hsort hjle hmidlen
          rw [hkey, ← hmidval] at hmono
          exact absurd (lt_of_le_of_lt hmono hlt) (lt_irrefl t)
        exact ih ((low + high) / 2 + 1) high (by omega) (by omega) hhigh
          ⟨j, hj, by omega, hhi, hkey⟩
      · rw [if_neg hlt]
        have hgt : t < key (data.getD ((low + high) / 2).toNat default) := by
          rcases lt_trichotomy (key (data.getD ((low + high) / 2).toNat default)) t with
            h1 | h1 | h1
          · exact absurd h1 hlt
          · exact absurd h1 heq
          · exact h1
        have hjlt : (j : Int) < (low + high) / 2 := by
          by_contra hcon
          have hjge : ((low + high) / 2).toNat ≤ j := by omega
          have hmono := sortedByKey_get_mono key hsort hjge hj
          rw [hkey, ← hmidval] at hmono
          exact absurd (lt_of_lt_of_le hgt hmono) (lt_irrefl t)
        exact ih low ((low + high) / 2 - 1) (by omega) h0 (by omega)
          ⟨j, hj, hlow, by omega, hkey⟩

end Search

-- ---------------------------------------------------------------------------
-- Linear search
-- ---------------------------------------------------------------------------

/-- Embedding of the `for i, item in enumerate(data)` loop of
`linear_search` (src/algorithms.py lines 153-157), carrying the running
index. -/
def linSearchFrom (target : K) (key : α → K) : List α → Nat → Option Nat
  | [], _ => none
  | x :: xs, i => if key x = target then some i else linSearchFrom target key xs (i + 1)

/-- Embedding of `linear_search(data, target, key)`
(src/algorithms.py lines 140-157). -/
def linear_search (data : List α) (target : K) (key : α → K) : Option Nat :=
  linSearchFrom target key data 0

theorem linSearchFrom_none (t : K) (key : α → K) :
    ∀ (l : List α) (i0 : Nat), (∀ x ∈ l, key x ≠ t) →
      linSearchFrom t key l i0 = none := by
  intro l
  induction l with
  | nil => intro i0 _; rfl
  | cons x xs ih =>
    intro i0 hall
    rw [linSearchFrom, if_neg (hall x (List.mem_cons_self x xs))]
    exact ih (i0 + 1) fun y hy => hall y (List.mem_cons_of_mem x hy)

theorem linSearchFrom_found (t : K) (key : α → K) :
    ∀ (l : List α) (i0 : Nat), (∃ x ∈ l, key x = t) →
      ∃ (m : Nat) (hm : m < l.length), linSearchFrom t key l i0 = some (i0 + m) ∧
        key (l.get ⟨m, hm⟩) = t ∧
        ∀ (m' : Nat) (hm' : m' < l.length), m' < m → key (l.get ⟨m', hm'⟩) ≠ t := by
  intro l
  induction l with
  | nil =>
    intro i0 hex
    obtain ⟨x, hx, -⟩ := hex
    exact absurd hx (List.not_mem_nil x)
  | cons x xs ih =>
    intro i0 hex
    by_cases hx : key x = t
    · refine ⟨0, by simp, ?_, hx, ?_⟩
      · rw [linSearchFrom, if_pos hx]
        rfl
      · intro m' hm' hcon
        exact absurd hcon (Nat.not_lt_zero m')
    · have hex' : ∃ y ∈ xs, key y = t := by
        obtain ⟨y, hy, hyt⟩ := hex
        rcases List.mem_cons.mp hy with rfl | hy'
        · exact absurd hyt hx
        · exact ⟨y, hy', hyt⟩
      obtain ⟨m, hm, heq, hkey, hfirst⟩ := ih (i0 + 1) hex'
      refine ⟨m + 1, by simpa using Nat.succ_lt_succ hm, ?_, hkey, ?_⟩
      · rw [linSearchFrom, if_neg hx, heq]
        congr 1
        omega
      · intro m' hm' hcon
        cases m' with
        | zero => exact hx
        | succ m'' =>
          exact hfirst m'' (by simpa using Nat.lt_of_succ_lt_succ hm')
            (Nat.lt_of_succ_lt_succ hcon)

-- ---------------------------------------------------------------------------
-- Benchmark harnesses. `timeit.timeit` readings are wall-clock and thus
-- non-deterministic; each timed callable's total elapsed seconds enters the
-- embedding as an explicit nonnegative rational oracle argument. `round(x, 2)`
-- is Python's round-half-to-even at two decimal places.
-- ---------------------------------------------------------------------------

/-- Round a rational to the nearest integer, ties to even (Python `round`). -/
def roundHalfEven (q : ℚ) : ℤ :=
  if q - (⌊q⌋ : ℚ) < 1 / 2 then ⌊q⌋
  else if 1 / 2 < q - (⌊q⌋ : ℚ) then ⌊q⌋ + 1
  else if ⌊q⌋ % 2 = 0 then ⌊q⌋ else ⌊q⌋ + 1

/-- Embedding of Python `round(x, 2)`. -/
def round2 (q : ℚ) : ℚ := (roundHalfEven (q * 100) : ℚ) / 100

theorem roundHalfEven_nonneg (q : ℚ) (h : 0 ≤ q) : 0 ≤ roundHalfEven q := by
  have h1 : (0 : ℤ) ≤ ⌊q⌋ := Int.floor_nonneg.mpr h
  unfold roundHalfEven
  split
  · exact h1
  · split
    · omega
    · split <;> omega

theorem round2_nonneg (q : ℚ) (h : 0 ≤ q) : 0 ≤ round2 q := by
  unfold round2
  have h1 : (0 : ℤ) ≤ roundHalfEven (q * 100) :=
    roundHalfEven_nonneg _ (by positivity)
  have h2 : (0 : ℚ) ≤ (roundHalfEven (q * 100) : ℚ) := by exact_mod_cast h1
  positivity

/-- Embedding of `benchmark_sort(data, key, repeats)`
(src/algorithms.py lines 164-191). `merge_time` and `builtin_time` are the
elapsed-seconds totals returned by the two `timeit.timeit` calls (timing
oracles); the result dictionary is a list of key/value pairs. -/
def benchmark_sort (data : List α) (key : α → K) (repeats : ℕ)
    (merge_time builtin_time : ℚ) : List (String × ℚ) :=
  [("merge_sort_ms", round2 (merge_time / repeats * 1000)),
   ("builtin_sorted_ms", round2 (builtin_time / repeats * 1000))]

/-- Embedding of `benchmark_search(data, target, key, repeats)`
(src/algorithms.py lines 198-233), with one timing oracle per timed
callable. -/
def benchmark_search (data : List α) (target : K) (key : α → K) (repeats : ℕ)
    (binary_time linear_time builtin_time : ℚ) : List (String × ℚ) :=
  [("binary_search_ms", round2 (binary_time / repeats * 1000)),
   ("linear_search_ms", round2 (linear_time / repeats * 1000)),
   ("builtin_in_ms", round2 (builtin_time / repeats * 1000))]

-- ---------------------------------------------------------------------------
-- Reference/heap model for the frame claim. Python lists are mutable objects;
-- `Store` maps references (allocation indices) to list contents. The
-- operations below re-run the embedded algorithms against the store:
-- `insertion_sort` first allocates a fresh copy (`arr = list(data)`) and every
-- write of its loops targets that copy; the other operations never write.
-- ---------------------------------------------------------------------------

structure Store (α : Type) where
  mem : Nat → List α
  next : Nat

def readRef (s : Store α) (r : Nat) : List α := s.mem r

def writeRef (s : Store α) (r : Nat) (v : List α) : Store α :=
  ⟨fun i => if i = r then v else s.mem i, s.next⟩

def allocRef (s : Store α) (v : List α) : Nat × Store α :=
  (s.next, ⟨fun i => if i = s.next then v else s.mem i, s.next + 1⟩)

theorem readRef_writeRef_self (s : Store α) (r : Nat) (v : List α) :
    readRef (writeRef s r v) r = v := by
  simp [readRef, writeRef]

theorem readRef_writeRef_ne (s : Store α) (a r : Nat) (v : List α) (h : r ≠ a) :
    readRef (writeRef s a v) r = readRef s r := by
  simp [readRef, writeRef, h]

/-- The inner while loop of `insertion_sort`, reading and writing the array
through reference `a` in the store (one store write per Python assignment
`arr[j+1] = ...`). -/
def insertLoopRef (key : α → K) (current : α) (current_key : K) (a : Nat) :
    Store α → Nat → Store α
  | s, 0 => writeRef s a ((readRef s a).set 0 current)
  | s, j + 1 =>
    if h : j < (readRef s a).length then
      if current_key < key ((readRef s a).get ⟨j, h⟩) then
        insertLoopRef key current current_key a
          (writeRef s a ((readRef s a).set (j + 1) ((readRef s a).get ⟨j, h⟩))) j
      else writeRef s a ((readRef s a).set (j + 1) current)
    else writeRef s a ((readRef s a).set (j + 1) current)

theorem insertLoopRef_sim (key : α → K) (c : α) (ck : K) (a : Nat) :
    ∀ (j : Nat) (s : Store α),
      readRef (insertLoopRef key c ck a s j) a = insertLoop key c ck (readRef s a) j := by
  intro j
  induction j with
  | zero => intro s; rw [insertLoopRef, insertLoop, readRef_writeRef_self]
  | succ j ih =>
    intro s
    rw [insertLoopRef, insertLoop]
    by_cases h : j < (readRef s a).length
    · rw [dif_pos h, dif_pos h]
      by_cases h2 : ck < key ((readRef s a).get ⟨j, h⟩)
      · rw [if_pos h2, if_pos h2, ih, readRef_writeRef_self]
      · rw [if_neg h2, if_neg h2, readRef_writeRef_self]
    · rw [dif_neg h, dif_neg h, readRef_writeRef_self]

theorem insertLoopRef_frame (key : α → K) (c : α) (ck : K) (a r : Nat)
    (hne : r ≠ a) :
    ∀ (j : Nat) (s : Store α),
      readRef (insertLoopRef key c ck a s j) r = readRef s r := by
  intro j
  induction j with
  | zero => intro s; rw [insertLoopRef, readRef_writeRef_ne _ _ _ _ hne]
  | succ j ih =>
    intro s
    rw [insertLoopRef]
    by_cases h : j < (readRef s a).length
    · rw [dif_pos h]
      by_cases h2 : ck < key ((readRef s a).get ⟨j, h⟩)
      · rw [if_pos h2, ih, readRef_writeRef_ne _ _ _ _ hne]
      · rw [if_neg h2, readRef_writeRef_ne _ _ _ _ hne]
    · rw [dif_neg h, readRef_writeRef_ne _ _ _ _ hne]

/-- The outer for loop of `insertion_sort` against the store. -/
def insertFromRef (key : α → K) (a : Nat) (s : Store α) (i : Nat) : Store α :=
  if h : i < (readRef s a).length then
    insertFromRef key a
      (insertLoopRef key ((readRef s a).get ⟨i, h⟩) (key ((readRef s a).get ⟨i, h⟩)) a s i)
      (i + 1)
  else s
termination_by (readRef s a).length - i
decreasing_by simp [insertLoopRef_sim, insertLoop_length]; omega

theorem insertFromRef_sim (key : α → K) (a : Nat) :
    ∀ (n : Nat) (s : Store α) (i : Nat), (readRef s a).length - i ≤ n →
      readRef (insertFromRef key a s i) a = insertFrom key (readRef s a) i := by
  intro n
  induction n with
  | zero =>
    intro s i hn
    have hge : ¬ i < (readRef s a).length := by omega
    rw [insertFromRef, dif_neg hge, insertFrom, dif_neg hge]
  | succ n ih =>
    intro s i hn
    by_cases h : i < (readRef s a).length
    · rw [insertFromRef, dif_pos h, insertFrom, dif_pos h]
      rw [ih _ (i + 1) (by rw [insertLoopRef_sim, insertLoop_length]; omega),
        insertLoopRef_sim]
    · rw [insertFromRef, dif_neg h, insertFrom, dif_neg h]

theorem insertFromRef_frame (key : α → K) (a r : Nat) (hne : r ≠ a) :
    ∀ (n : Nat) (s : Store α) (i : Nat), (readRef s a).length - i ≤ n →
      readRef (insertFromRef key a s i) r = readRef s r := by
  intro n
  induction n with
  | zero =>
    intro s i hn
    have hge : ¬ i < (readRef s a).length := by omega
    rw [insertFromRef, dif_neg hge]
  | succ n ih =>
    intro s i hn
    by_cases h : i < (readRef s a).length
    · rw [insertFromRef, dif_pos h]
      rw [ih _ (i + 1) (by rw [insertLoopRef_sim, insertLoop_length]; omega),
        insertLoopRef_frame key _ _ a r hne]
    · rw [insertFromRef, dif_neg h]

/-- `insertion_sort` against the store: allocate a fresh copy of the input
list (`arr = list(data)`), run the loops on the copy, return its reference. -/
def insertion_sortRef (key : α → K) (r : Nat) (s : Store α) : Nat × Store α :=
  ((allocRef s (readRef s r)).1,
   insertFromRef key (allocRef s (readRef s r)).1 (allocRef s (readRef s r)).2 1)

/-- `merge_sort` against the store: a pure read, no writes. -/
def merge_sortRef (key : α → K) (r : Nat) (s : Store α) : List α × Store α :=
  (merge_sort (readRef s r) key, s)

/-- `linear_search` against the store: a pure read, no writes. -/
def linear_searchRef (target : K) (key : α → K) (r : Nat) (s : Store α) :
    Option Nat × Store α :=
  (linear_search (readRef s r) target key, s)

theorem insertion_sortRef_frame (key : α → K) (r : Nat) (s : Store α)
    (hr : r < s.next) :
    readRef (insertion_sortRef key r s).2 r = readRef s r := by
  have hne : r ≠ s.next := by omega
  simp only [insertion_sortRef, allocRef]
  rw [insertFromRef_frame key s.next r hne _ _ 1 le_rfl]
  simp [readRef, hne]

theorem insertion_sortRef_result (key : α → K) (r : Nat) (s : Store α) :
    readRef (insertion_sortRef key r s).2 (insertion_sortRef key r s).1 =
      insertion_sort (readRef s r) key := by
  simp only [insertion_sortRef, allocRef]
  rw [insertFromRef_sim key s.next _ _ 1 le_rfl]
  rw [insertion_sort]
  congr 1
  simp [readRef]

/-- `binary_search` against the store: a pure read, no writes. -/
def binary_searchRef [Inhabited α] (target : K) (key : α → K) (r : Nat)
    (s : Store α) : Option Int × Store α :=
  (binary_search (readRef s r) target key, s)

/-- `benchmark_sort` against the store: only reads the data list. -/
def benchmark_sortRef (key : α → K) (repeats : ℕ) (q1 q2 : ℚ) (r : Nat)
    (s : Store α) : List (String × ℚ) × Store α :=
  (benchmark_sort (readRef s r) key repeats q1 q2, s)

/-- `benchmark_search` against the store: only reads the data list. -/
def benchmark_searchRef (target : K) (key : α → K) (repeats : ℕ)
    (q1 q2 q3 : ℚ) (r : Nat) (s : Store α) : List (String × ℚ) × Store α :=
  (benchmark_search (readRef s r) target key repeats q1 q2 q3, s)

-- ---------------------------------------------------------------------------
-- Claim theorems
-- ---------------------------------------------------------------------------

/-- C1: for every finite list and key function, both `merge_sort` and
`insertion_sort` return a permutation of the input (in particular a list of
equal length) whose elements are non-descending under the key. -/
theorem C1_sort_perm_sorted (data : List α) (key : α → K) :
    ((merge_sort data key).Perm data ∧ (merge_sort data key).length = data.length ∧
      sortedByKey key (merge_sort data key)) ∧
    ((insertion_sort data key).Perm data ∧
      (insertion_sort data key).length = data.length ∧
      sortedByKey key (insertion_sort data key)) :=
  ⟨⟨merge_sort_perm data key, merge_sort_length data key, merge_sort_sorted data key⟩,
   ⟨insertion_sort_perm data key, insertion_sort_length data key,
    insertion_sort_sorted data key⟩⟩

/-- C2: on a list sorted ascending by `key`, `binary_search` applied to the
key of any member returns an in-range index whose element has that key, and
returns the NotFound marker `none` (not an exception) whenever no element's
key equals the target. -/
theorem C2_binary_search_correct [Inhabited α] (data : List α) (key : α → K)
    (hsort : sortedByKey key data) :
    (∀ e ∈ data, ∃ (j : Nat) (hj : j < data.length),
      binary_search data (key e) key = some (j : Int) ∧
      key (data.get ⟨j, hj⟩) = key e) ∧
    (∀ t : K, (∀ x ∈ data, key x ≠ t) → binary_search data t key = none) := by
  constructor
  · intro e he
    obtain ⟨⟨j, hj⟩, hget⟩ := List.mem_iff_get.mp he
    obtain ⟨i, hi⟩ := bsLoop_complete data (key e) key hsort data.length 0
      ((data.length : Int) - 1) (by omega) le_rfl (by omega)
      ⟨j, hj, by omega, by omega, by rw [hget]⟩
    obtain ⟨j2, hj2, rfl, hkey2⟩ := bsLoop_sound data (key e) key data.length 0
      ((data.length : Int) - 1) (by omega) le_rfl (by omega) i hi
    exact ⟨j2, hj2, hi, hkey2⟩
  · intro t hall
    cases hres : binary_search data t key with
    | none => rfl
    | some i =>
      obtain ⟨j, hj, -, hkey⟩ := bsLoop_sound data t key data.length 0
        ((data.length : Int) - 1) (by omega) le_rfl (by omega) i hres
      exact absurd hkey (hall _ (data.get_mem j hj))

/-- C2 witness: on the sorted list [1,3,5,7,9], binary_search finds key 7 at
a valid index and reports 4 as not found. -/
theorem C2_binary_search_correct_witness :
    (∃ (j : Nat) (hj : j < ([1, 3, 5, 7, 9] : List Int).length),
      binary_search ([1, 3, 5, 7, 9] : List Int) 7 (fun x => x) = some (j : Int) ∧
      ([1, 3, 5, 7, 9] : List Int).get ⟨j, hj⟩ = 7) ∧
    binary_search ([1, 3, 5, 7, 9] : List Int) 4 (fun x => x) = none := by
  have h := C2_binary_search_correct ([1, 3, 5, 7, 9] : List Int) (fun x => x)
    (by decide)
  exact ⟨by simpa using h.1 7 (by decide), h.2 4 (by decide)⟩

/-- C3: both sorts are stable: for every key value, the sublist of elements
carrying that key is exactly the corresponding sublist of the input, in the
input's order. -/
theorem C3_sort_stable (data : List α) (key : α → K) (k : K) :
    keyFilter key k (merge_sort data key) = keyFilter key k data ∧
    keyFilter key k (insertion_sort data key) = keyFilter key k data :=
  ⟨merge_sort_filter data key k, insertion_sort_filter data key k⟩

/-- C4: linear_search returns the smallest index whose key equals the target
when one exists and `none` otherwise; in particular
`linear_search [10, 20, 10] 10` returns index 0 (first match). -/
theorem C4_linear_search_first (data : List α) (t : K) (key : α → K) :
    ((∃ x ∈ data, key x = t) →
      ∃ (i : Nat) (hi : i < data.length), linear_search data t key = some i ∧
        key (data.get ⟨i, hi⟩) = t ∧
        ∀ (j : Nat) (hj : j < data.length), j < i → key (data.get ⟨j, hj⟩) ≠ t) ∧
    ((∀ x ∈ data, key x ≠ t) → linear_search data t key = none) ∧
    linear_search ([10, 20, 10] : List Int) 10 (fun x => x) = some 0 := by
  refine ⟨?_, ?_, by decide⟩
  · intro hex
    obtain ⟨m, hm, heq, hkey, hfirst⟩ := linSearchFrom_found t key data 0 hex
    refine ⟨m, hm, ?_, hkey, fun j hj hlt => hfirst j hj hlt⟩
    rw [linear_search, heq, Nat.zero_add]
  · intro hall
    rw [linear_search]
    exact linSearchFrom_none t key data 0 hall

/-- C4 witness: concrete found (first-match) and not-found runs. -/
theorem C4_linear_search_first_witness :
    (∃ (i : Nat) (hi : i < ([10, 20, 10] : List Int).length),
      linear_search ([10, 20, 10] : List Int) 10 (fun x => x) = some i ∧
      ([10, 20, 10] : List Int).get ⟨i, hi⟩ = 10 ∧
      ∀ (j : Nat) (hj : j < ([10, 20, 10] : List Int).length), j < i →
        ([10, 20, 10] : List Int).get ⟨j, hj⟩ ≠ 10) ∧
    linear_search ([1, 2, 3] : List Int) 7 (fun x => x) = none := by
  have h1 := C4_linear_search_first ([10, 20, 10] : List Int) 10 (fun x => x)
  have h2 := C4_linear_search_first ([1, 2, 3] : List Int) 7 (fun x => x)
  exact ⟨h1.1 (by decide), h2.2.1 (by decide)⟩

/-- C5: binary_search's loop maintains the closed interval [low, high]
(started at [0, n-1] by `binary_search`), probes `(low + high) // 2`,
branches three ways (equal: return mid; less: low := mid + 1; greater:
high := mid - 1), exits with `none` exactly when low > high, and both
recursive calls strictly shrink the interval width, which is the measure
that makes the Lean function total. -/
theorem C5_binary_search_terminates [Inhabited α] (data : List α) (t : K)
    (key : α → K) (low high : Int) :
    (¬ low ≤ high → bsLoop data t key low high = none) ∧
    (low ≤ high →
      low ≤ (low + high) / 2 ∧ (low + high) / 2 ≤ high ∧
      (key (data.getD ((low + high) / 2).toNat default) = t →
        bsLoop data t key low high = some ((low + high) / 2)) ∧
      (key (data.getD ((low + high) / 2).toNat default) < t →
        bsLoop data t key low high = bsLoop data t key ((low + high) / 2 + 1) high) ∧
      (t < key (data.getD ((low + high) / 2).toNat default) →
        bsLoop data t key low high = bsLoop data t key low ((low + high) / 2 - 1)) ∧
      (high - ((low + high) / 2 + 1) + 1).toNat < (high - low + 1).toNat ∧
      ((low + high) / 2 - 1 - low + 1).toNat < (high - low + 1).toNat) ∧
    binary_search data t key = bsLoop data t key 0 ((data.length : Int) - 1) := by
  refine ⟨fun h => bsLoop_exit data t key low high h, fun h => ?_, rfl⟩
  refine ⟨by omega, by omega, ?_, ?_, ?_, by omega, by omega⟩
  · intro heq
    rw [bsLoop_step data t key low high h, if_pos heq]
  · intro hlt
    rw [bsLoop_step data t key low high h, if_neg (ne_of_lt hlt), if_pos hlt]
  · intro hgt
    rw [bsLoop_step data t key low high h, if_neg (ne_of_gt hgt),
      if_neg (lt_asymm hgt)]

/-- C5 witness: the loop exits with none on an empty interval, takes the
equal branch on a concrete probe, and binary_search starts at [0, n-1]. -/
theorem C5_binary_search_terminates_witness :
    bsLoop ([1, 3] : List Int) 3 (fun x => x) 2 1 = none ∧
    bsLoop ([1, 3] : List Int) 3 (fun x => x) 1 1 = some 1 ∧
    binary_search ([1, 3] : List Int) 3 (fun x => x) =
      bsLoop ([1, 3] : List Int) 3 (fun x => x) 0 1 := by
  have h1 := C5_binary_search_terminates ([1, 3] : List Int) 3 (fun x => x) 2 1
  have h2 := C5_binary_search_terminates ([1, 3] : List Int) 3 (fun x => x) 1 1
  have h3 := C5_binary_search_terminates ([1, 3] : List Int) 3 (fun x => x) 0 1
  refine ⟨h1.1 (by decide), ?_, ?_⟩
  · have hmid := (h2.2.1 (by decide)).2.2.1
    simpa using hmid (by decide)
  · simpa using h3.2.2

/-- C6 counterexample: the claim "every value is strictly positive" fails.
With repeats = 1, the nonempty input [1], and a strictly positive elapsed
time of 10⁻⁶ s for each timed callable (a realistic reading for so small an
input), `benchmark_sort` rounds 0.001 ms to 0.0 — not strictly positive. -/
theorem C6_benchmark_counterexample :
    (0 : ℚ) < 1 / 1000000 ∧ 1 ≤ (1 : ℕ) ∧ ([1] : List Int) ≠ [] ∧
    benchmark_sort ([1] : List Int) (fun x => x) 1 (1 / 1000000) (1 / 1000000) =
      [("merge_sort_ms", 0), ("builtin_sorted_ms", 0)] ∧
    ¬ (0 : ℚ) < 0 := by
  refine ⟨by norm_num, le_rfl, by decide, ?_, lt_irrefl 0⟩
  rw [benchmark_sort]
  have harg : ((1 : ℚ) / 1000000 / ((1 : ℕ) : ℚ) * 1000) = 1 / 1000 := by
    push_cast
    norm_num
  rw [harg]
  have hr2 : round2 ((1 : ℚ) / 1000) = 0 := by
    rw [round2]
    have harg2 : ((1 : ℚ) / 1000 * 100) = 1 / 10 := by norm_num
    rw [harg2]
    have hfloor : ⌊(1 / 10 : ℚ)⌋ = 0 := by
      rw [Int.floor_eq_iff] <;> norm_num
    rw [roundHalfEven, hfloor]
    norm_num
  rw [hr2]

/-- C6 (amended): for repeats ≥ 1, nonempty input, and nonnegative elapsed
times, the benchmark mappings have exactly the documented key sets —
{merge_sort_ms, builtin_sorted_ms} and
{binary_search_ms, linear_search_ms, builtin_in_ms} — and every value is a
nonnegative mean-millisecond timing rounded to 2 decimal places (strict
positivity does not survive the rounding; see the counterexample). -/
theorem C6_benchmark_keys_nonneg (data : List α) (target : K) (key : α → K)
    (repeats : ℕ) (q1 q2 q3 q4 q5 : ℚ) (hrep : 1 ≤ repeats)
    (hdata : data ≠ []) (h1 : 0 ≤ q1) (h2 : 0 ≤ q2) (h3 : 0 ≤ q3)
    (h4 : 0 ≤ q4) (h5 : 0 ≤ q5) :
    (benchmark_sort data key repeats q1 q2).map Prod.fst =
      ["merge_sort_ms", "builtin_sorted_ms"] ∧
    (benchmark_search data target key repeats q3 q4 q5).map Prod.fst =
      ["binary_search_ms", "linear_search_ms", "builtin_in_ms"] ∧
    (∀ v ∈ (benchmark_sort data key repeats q1 q2).map Prod.snd, 0 ≤ v) ∧
    (∀ v ∈ (benchmark_search data target key repeats q3 q4 q5).map Prod.snd,
      0 ≤ v) := by
  refine ⟨rfl, rfl, ?_, ?_⟩
  · intro v hv
    simp [benchmark_sort] at hv
    rcases hv with rfl | rfl <;> exact round2_nonneg _ (by positivity)
  · intro v hv
    simp [benchmark_search] at hv
    rcases hv with rfl | rfl | rfl <;> exact round2_nonneg _ (by positivity)

/-- C6 witness: concrete benchmark runs with positive oracle timings. -/
theorem C6_benchmark_keys_nonneg_witness :
    (benchmark_sort ([1] : List Int) (fun x => x) 5 (1 / 2) (1 / 3)).map Prod.fst =
      ["merge_sort_ms", "builtin_sorted_ms"] ∧
    (benchmark_search ([1] : List Int) 1 (fun x => x) 5 (1 / 2) (1 / 3)
        (1 / 4)).map Prod.fst =
      ["binary_search_ms", "linear_search_ms", "builtin_in_ms"] ∧
    (∀ v ∈ (benchmark_sort ([1] : List Int) (fun x => x) 5 (1 / 2)
        (1 / 3)).map Prod.snd, 0 ≤ v) ∧
    (∀ v ∈ (benchmark_search ([1] : List Int) 1 (fun x => x) 5 (1 / 2) (1 / 3)
        (1 / 4)).map Prod.snd, 0 ≤ v) :=
  C6_benchmark_keys_nonneg ([1] : List Int) 1 (fun x => x) 5 (1 / 2) (1 / 3)
    (1 / 2) (1 / 3) (1 / 4) (by norm_num) (by decide) (by norm_num)
    (by norm_num) (by norm_num) (by norm_num) (by norm_num)

/-- C7: no exposed operation mutates the caller's input list. In the store
model, `insertion_sort` allocates a fresh copy, writes only to it, leaves
the caller's reference unchanged, and its result is the pure
`insertion_sort` of the input value; `merge_sort`, both searches, and both
benchmark harnesses return the store untouched. -/
theorem C7_no_mutation [Inhabited α] (t : K) (key : α → K) (repeats : ℕ)
    (q1 q2 q3 q4 q5 : ℚ) (r : Nat) (s : Store α) (hr : r < s.next) :
    readRef (insertion_sortRef key r s).2 r = readRef s r ∧
    readRef (insertion_sortRef key r s).2 (insertion_sortRef key r s).1 =
      insertion_sort (readRef s r) key ∧
    (merge_sortRef key r s).2 = s ∧
    (binary_searchRef t key r s).2 = s ∧
    (linear_searchRef t key r s).2 = s ∧
    (benchmark_sortRef key repeats q1 q2 r s).2 = s ∧
    (benchmark_searchRef t key repeats q3 q4 q5 r s).2 = s :=
  ⟨insertion_sortRef_frame key r s hr, insertion_sortRef_result key r s,
   rfl, rfl, rfl, rfl, rfl⟩

/-- C7 witness: in a concrete store holding [3, 1, 2] at reference 0,
insertion_sort leaves reference 0 unchanged and its fresh reference holds
the sorted copy. -/
theorem C7_no_mutation_witness :
    readRef (insertion_sortRef (fun x : Int => x) 0
      ⟨fun i => if i = 0 then [3, 1, 2] else [], 1⟩).2 0 = [3, 1, 2] ∧
    readRef (insertion_sortRef (fun x : Int => x) 0
        ⟨fun i => if i = 0 then [3, 1, 2] else [], 1⟩).2
      (insertion_sortRef (fun x : Int => x) 0
        ⟨fun i => if i = 0 then [3, 1, 2] else [], 1⟩).1 = [1, 2, 3] := by
  have h := C7_no_mutation (0 : Int) (fun x : Int => x) 1 0 0 0 0 0 0
    ⟨fun i => if i = 0 then [3, 1, 2] else [], 1⟩ (by decide)
  refine ⟨by rw [h.1]; rfl, ?_⟩
  rw [h.2.1]
  show insertion_sort [3, 1, 2] (fun x : Int => x) = [1, 2, 3]
  simp [insertion_sort, insertFrom, insertLoop]

/-- C8: sorting is idempotent: re-sorting an already produced sort output
returns it unchanged, for both merge_sort and insertion_sort. -/
theorem C8_sort_idempotent (data : List α) (key : α → K) :
    merge_sort (merge_sort data key) key = merge_sort data key ∧
    insertion_sort (insertion_sort data key) key = insertion_sort data key := by
  constructor
  · apply sorted_filter_unique key _ _ (merge_sort_sorted _ key)
      (merge_sort_sorted data key)
    intro k
    rw [merge_sort_filter]
  · apply sorted_filter_unique key _ _ (insertion_sort_sorted _ key)
      (insertion_sort_sorted data key)
    intro k
    rw [insertion_sort_filter]

/-- C9: merge_sort is total by construction (a well-founded Lean function:
no input can make it raise), and on every list of length ≤ 1 it returns the
input value (Python returns `list(data)`, an equal-valued copy). -/
theorem C9_merge_sort_base (data : List α) (key : α → K)
    (h : data.length ≤ 1) : merge_sort data key = data :=
  merge_sort_base data key h

/-- C9 witness: empty and singleton inputs. -/
theorem C9_merge_sort_base_witness :
    merge_sort ([] : List Int) (fun x => x) = [] ∧
    merge_sort ([5] : List Int) (fun x => x) = [5] :=
  ⟨C9_merge_sort_base [] (fun x => x) (by decide),
   C9_merge_sort_base [5] (fun x => x) (by decide)⟩

/-- C10: the two sorts agree exactly on every input: both compute the unique
stable ascending arrangement, so either may be substituted for the other. -/
theorem C10_sorts_agree (data : List α) (key : α → K) :
    merge_sort data key = insertion_sort data key :=
  sorted_filter_unique key _ _ (merge_sort_sorted data key)
    (insertion_sort_sorted data key)
    (fun k => (merge_sort_filter data key k).trans
      (insertion_sort_filter data key k).symm)

end ProjectBike
